import Mathlib

/-!
Verification of the AgroChain batch-tracking system.

The development shallowly embeds the on-chain ledger contract
(`contracts/BatchTracker.sol`, the extended variant with IPFS metadata)
as a state machine over `ContractState`, and the client access layer
(`app/lib/contract.ts`, `app/lib/pinata.ts`, `app/lib/metadata-storage.ts`)
as functions parametrized by oracles for the network and the off-chain
metadata store.  Every state-changing contract entry point returns
`Except Err (α × ContractState)`: an `Except.error` models an EVM revert,
which rolls back all storage writes, so a failed call produces no new state.
-/

namespace BatchTracker

/-- Ethereum addresses, abstracted as naturals; `0` is the zero address. -/
abbrev Address := Nat

/-- Solidity struct `Batch` (BatchTracker.sol lines 10-17).  The Solidity
field `exists` is rendered `exists_` because `exists` is reserved in Lean. -/
structure Batch where
  batchId : Nat
  ownerHistory : List Address
  exists_ : Bool
  createdAt : Nat
  lastTransferAt : Nat
  ipfsHash : String
deriving DecidableEq

/-- The zero value of the `Batch` storage struct: every slot of the
`batches` mapping holds this value until written. -/
def defaultBatch : Batch := ⟨0, [], false, 0, 0, ""⟩

/-- Failure classification, following the spec's error taxonomy (§7):
`NotFound` is the revert "Batch does not exist", `Unauthorized` is the
revert "Only current owner can modify batch", `InvalidArgument` covers the
reverts "Cannot transfer to zero address" and "Cannot transfer to current
owner", and `Panic` is a Solidity 0.8 arithmetic/array panic. -/
inductive Err where
  | NotFound
  | Unauthorized
  | InvalidArgument
  | Panic
deriving DecidableEq

/-- Contract storage: the `batches` mapping, the `batchExists` mapping and
the private counter `nextBatchId` (BatchTracker.sol lines 20-26). -/
structure ContractState where
  batches : Nat → Batch
  batchExists : Nat → Bool
  nextBatchId : Nat

/-- State after the constructor runs: empty mappings, `nextBatchId = 1`. -/
def initState : ContractState := ⟨fun _ => defaultBatch, fun _ => false, 1⟩

/-- Largest value of a `uint256`; Solidity 0.8 checked arithmetic panics
past it. -/
def UINT256_MAX : Nat := 2 ^ 256 - 1

/-- Solidity `getCurrentOwner` (lines 144-151): guarded by `batchMustExist`, then
returns `ownerHistory[ownerHistory.length - 1]`.  On an empty history the
index expression underflows/over-reads, a Solidity panic. -/
def getCurrentOwner (s : ContractState) (id : Nat) : Except Err Address :=
  if s.batchExists id = false then .error .NotFound
  else
    match (s.batches id).ownerHistory.getLast? with
    | none => .error .Panic
    | some a => .ok a

/-- Solidity `getOwnerHistory` (lines 158-162). -/
def getOwnerHistory (s : ContractState) (id : Nat) : Except Err (List Address) :=
  if s.batchExists id = false then .error .NotFound
  else .ok (s.batches id).ownerHistory

/-- The six-component return tuple of `getBatchInfo` (lines 174-198). -/
structure BatchInfoTuple where
  batchId : Nat
  currentOwner : Address
  ownerCount : Nat
  createdAt : Nat
  lastTransferAt : Nat
  ipfsHash : String
deriving DecidableEq

/-- Solidity `getBatchInfo` (lines 174-198). -/
def getBatchInfo (s : ContractState) (id : Nat) : Except Err BatchInfoTuple :=
  if s.batchExists id = false then .error .NotFound
  else
    match (s.batches id).ownerHistory.getLast? with
    | none => .error .Panic
    | some owner =>
        .ok ⟨(s.batches id).batchId, owner, (s.batches id).ownerHistory.length,
             (s.batches id).createdAt, (s.batches id).lastTransferAt,
             (s.batches id).ipfsHash⟩

/-- Solidity `getTotalBatches` (lines 204-206): `nextBatchId - 1` with checked
subtraction, which panics only if the counter were 0. -/
def getTotalBatches (s : ContractState) : Except Err Nat :=
  if s.nextBatchId = 0 then .error .Panic
  else .ok (s.nextBatchId - 1)

/-- Solidity `getOwnerCount` (lines 213-217). -/
def getOwnerCount (s : ContractState) (id : Nat) : Except Err Nat :=
  if s.batchExists id = false then .error .NotFound
  else .ok (s.batches id).ownerHistory.length

/-- Solidity `wasOwner` (lines 225-236): linear scan of `ownerHistory` for the
queried address. -/
def wasOwner (s : ContractState) (id : Nat) (a : Address) : Except Err Bool :=
  if s.batchExists id = false then .error .NotFound
  else .ok ((s.batches id).ownerHistory.contains a)

/-- Solidity `createBatch` (lines 77-93): allocates `nextBatchId`, pushes the caller
onto the (storage-resident) owner history of that slot, stamps both
timestamps with the block time, stores the hash, marks existence and
increments the counter with checked arithmetic. -/
def createBatch (s : ContractState) (sender : Address) (now : Nat)
    (hash : String) : Except Err (Nat × ContractState) :=
  let id := s.nextBatchId
  if UINT256_MAX < s.nextBatchId + 1 then .error .Panic
  else
    let b : Batch :=
      { batchId := id
        ownerHistory := (s.batches id).ownerHistory ++ [sender]
        exists_ := true
        createdAt := now
        lastTransferAt := now
        ipfsHash := hash }
    .ok (id,
      { batches := fun i => if i = id then b else s.batches i
        batchExists := fun i => if i = id then true else s.batchExists i
        nextBatchId := s.nextBatchId + 1 })

/-- Solidity `transferBatch` (lines 100-122): modifiers `batchMustExist` then
`onlyCurrentOwner` run first (each re-checking existence, then the owner),
followed by the zero-address and the no-op-transfer `require`s, in source
order; then the new owner is appended and `lastTransferAt` updated. -/
def transferBatch (s : ContractState) (sender : Address) (now : Nat)
    (id : Nat) (newOwner : Address) : Except Err (Unit × ContractState) :=
  if s.batchExists id = false then .error .NotFound
  else
    match (s.batches id).ownerHistory.getLast? with
    | none => .error .Panic
    | some owner =>
      if owner ≠ sender then .error .Unauthorized
      else if newOwner = 0 then .error .InvalidArgument
      else if newOwner = owner then .error .InvalidArgument
      else
        .ok ((),
          { s with batches := fun i =>
              if i = id then
                { s.batches id with
                    ownerHistory := (s.batches id).ownerHistory ++ [newOwner]
                    lastTransferAt := now }
              else s.batches i })

/-- Solidity `updateMetadata` (lines 129-137): same two modifiers, then the stored
`ipfsHash` is replaced. -/
def updateMetadata (s : ContractState) (sender : Address) (id : Nat)
    (newHash : String) : Except Err (Unit × ContractState) :=
  if s.batchExists id = false then .error .NotFound
  else
    match (s.batches id).ownerHistory.getLast? with
    | none => .error .Panic
    | some owner =>
      if owner ≠ sender then .error .Unauthorized
      else
        .ok ((),
          { s with batches := fun i =>
              if i = id then { s.batches id with ipfsHash := newHash }
              else s.batches i })

/-- One successful state-changing call (an included, non-reverting
transaction).  Reverting calls leave storage untouched, so they induce no
step. -/
inductive Step : ContractState → ContractState → Prop where
  | create (s : ContractState) (sender : Address) (now : Nat) (hash : String)
      (id : Nat) (s' : ContractState)
      (h : createBatch s sender now hash = .ok (id, s')) : Step s s'
  | transfer (s : ContractState) (sender : Address) (now : Nat) (id : Nat)
      (newOwner : Address) (s' : ContractState)
      (h : transferBatch s sender now id newOwner = .ok ((), s')) : Step s s'
  | update (s : ContractState) (sender : Address) (id : Nat) (newHash : String)
      (s' : ContractState)
      (h : updateMetadata s sender id newHash = .ok ((), s')) : Step s s'

/-- Zero or more successful calls. -/
inductive Steps : ContractState → ContractState → Prop where
  | refl (s : ContractState) : Steps s s
  | tail {s t u : ContractState} (h : Steps s t) (h' : Step t u) : Steps s u

/-- States the deployed contract can actually be in. -/
def Reachable (s : ContractState) : Prop := Steps initState s

/-- The storage invariant: the counter is at least 1, all slots at or past
the counter are untouched, and every existing batch has a non-empty owner
history and correctly recorded `batchId` and `exists` fields. -/
def Inv (s : ContractState) : Prop :=
  1 ≤ s.nextBatchId ∧
  (∀ id, s.nextBatchId ≤ id → s.batches id = defaultBatch ∧ s.batchExists id = false) ∧
  (∀ id, s.batchExists id = true →
    (s.batches id).ownerHistory ≠ [] ∧ (s.batches id).batchId = id ∧
    (s.batches id).exists_ = true)

theorem inv_init : Inv initState := by
  refine ⟨le_refl 1, fun id _ => ⟨rfl, rfl⟩, fun id h => ?_⟩
  simp [initState] at h

theorem createBatch_ok_inv {s : ContractState} {sender now : Nat} {hash : String}
    {id : Nat} {s' : ContractState}
    (hinv : Inv s) (h : createBatch s sender now hash = .ok (id, s')) : Inv s' := by
  obtain ⟨h1, h2, h3⟩ := hinv
  unfold createBatch at h
  split at h
  · exact absurd h (by simp)
  · simp only [Except.ok.injEq, Prod.mk.injEq] at h
    obtain ⟨hid, hs'⟩ := h
    subst hs' hid
    refine ⟨le_trans h1 (Nat.le_succ _), fun j hj => ?_, fun j hj => ?_⟩
    · simp only at hj ⊢
      have hne : j ≠ s.nextBatchId := by omega
      have hge : s.nextBatchId ≤ j := by omega
      simp only [if_neg hne]
      exact h2 j hge
    · simp only at hj ⊢
      by_cases hcase : j = s.nextBatchId
      · subst hcase
        simp only [if_pos rfl]
        have := (h2 s.nextBatchId (le_refl _)).1
        refine ⟨by simp, rfl, rfl⟩
      · simp only [if_neg hcase] at hj ⊢
        exact h3 j hj

theorem transferBatch_ok_inv {s : ContractState} {sender now id newOwner : Nat}
    {s' : ContractState}
    (hinv : Inv s) (h : transferBatch s sender now id newOwner = .ok ((), s')) :
    Inv s' := by
  obtain ⟨h1, h2, h3⟩ := hinv
  unfold transferBatch at h
  split at h
  · exact absurd h (by simp)
  · rename_i hex
    rw [Bool.not_eq_false] at hex
    split at h
    · exact absurd h (by simp)
    · split at h
      · exact absurd h (by simp)
      · split at h
        · exact absurd h (by simp)
        · split at h
          · exact absurd h (by simp)
          · simp only [Except.ok.injEq, Prod.mk.injEq, true_and] at h
            subst h
            have hlt : id < s.nextBatchId := by
              by_contra hge
              have := (h2 id (by omega)).2
              rw [this] at hex; exact Bool.false_ne_true hex
            refine ⟨h1, fun j hj => ?_, fun j hj => ?_⟩
            · simp only at hj ⊢
              have hne : j ≠ id := by omega
              simp only [if_neg hne]
              exact h2 j hj
            · simp only at hj ⊢
              by_cases hcase : j = id
              · subst hcase
                simp only [if_pos rfl]
                obtain ⟨ha, hb, hc⟩ := h3 j hex
                exact ⟨by simp [ha], hb, hc⟩
              · simp only [if_neg hcase]
                exact h3 j hj

theorem updateMetadata_ok_inv {s : ContractState} {sender id : Nat}
    {newHash : String} {s' : ContractState}
    (hinv : Inv s) (h : updateMetadata s sender id newHash = .ok ((), s')) :
    Inv s' := by
  obtain ⟨h1, h2, h3⟩ := hinv
  unfold updateMetadata at h
  split at h
  · exact absurd h (by simp)
  · rename_i hex
    rw [Bool.not_eq_false] at hex
    split at h
    · exact absurd h (by simp)
    · split at h
      · exact absurd h (by simp)
      · simp only [Except.ok.injEq, Prod.mk.injEq, true_and] at h
        subst h
        have hlt : id < s.nextBatchId := by
          by_contra hge
          have := (h2 id (by omega)).2
          rw [this] at hex; exact Bool.false_ne_true hex
        refine ⟨h1, fun j hj => ?_, fun j hj => ?_⟩
        · simp only at hj ⊢
          have hne : j ≠ id := by omega
          simp only [if_neg hne]
          exact h2 j hj
        · simp only at hj ⊢
          by_cases hcase : j = id
          · subst hcase
            simp only [if_pos rfl]
            obtain ⟨ha, hb, hc⟩ := h3 j hex
            exact ⟨ha, hb, hc⟩
          · simp only [if_neg hcase]
            exact h3 j hj

theorem step_inv {s s' : ContractState} (hinv : Inv s) (h : Step s s') : Inv s' := by
  cases h with
  | create _ _ _ _ _ h => exact createBatch_ok_inv hinv h
  | transfer _ _ _ _ _ h => exact transferBatch_ok_inv hinv h
  | update _ _ _ _ h => exact updateMetadata_ok_inv hinv h

theorem steps_inv {s s' : ContractState} (hinv : Inv s) (h : Steps s s') : Inv s' := by
  induction h with
  | refl => exact hinv
  | tail h h' ih => exact step_inv ih h'

theorem reachable_inv {s : ContractState} (h : Reachable s) : Inv s :=
  steps_inv inv_init h

theorem createBatch_ok_spec {s : ContractState} {sender now : Nat} {hash : String}
    {id : Nat} {s' : ContractState}
    (h : createBatch s sender now hash = .ok (id, s')) :
    id = s.nextBatchId ∧ s.nextBatchId + 1 ≤ UINT256_MAX ∧
    s'.nextBatchId = s.nextBatchId + 1 ∧
    (∀ j, s'.batchExists j = if j = id then true else s.batchExists j) ∧
    (∀ j, s'.batches j =
      if j = id then
        { batchId := id
          ownerHistory := (s.batches id).ownerHistory ++ [sender]
          exists_ := true
          createdAt := now
          lastTransferAt := now
          ipfsHash := hash }
      else s.batches j) := by
  unfold createBatch at h
  split at h
  · exact absurd h (by simp)
  · rename_i hbound
    simp only [Except.ok.injEq, Prod.mk.injEq] at h
    obtain ⟨hid, hs'⟩ := h
    subst hs'
    subst hid
    exact ⟨rfl, by omega, rfl, fun j => rfl, fun j => rfl⟩

theorem transferBatch_ok_spec {s : ContractState} {sender now id newOwner : Nat}
    {s' : ContractState}
    (h : transferBatch s sender now id newOwner = .ok ((), s')) :
    s.batchExists id = true ∧
    (s.batches id).ownerHistory.getLast? = some sender ∧
    newOwner ≠ 0 ∧ newOwner ≠ sender ∧
    s'.nextBatchId = s.nextBatchId ∧
    (∀ j, s'.batchExists j = s.batchExists j) ∧
    (∀ j, s'.batches j =
      if j = id then
        { s.batches id with
            ownerHistory := (s.batches id).ownerHistory ++ [newOwner]
            lastTransferAt := now }
      else s.batches j) := by
  unfold transferBatch at h
  split at h
  · exact absurd h (by simp)
  · rename_i hex
    rw [Bool.not_eq_false] at hex
    split at h
    · exact absurd h (by simp)
    · rename_i owner hlast
      split at h
      · exact absurd h (by simp)
      · rename_i hown
        rw [not_not] at hown
        subst hown
        split at h
        · exact absurd h (by simp)
        · split at h
          · exact absurd h (by simp)
          · rename_i hzero hnoop
            simp only [Except.ok.injEq, Prod.mk.injEq, true_and] at h
            subst h
            exact ⟨hex, hlast, hzero, hnoop, rfl, fun j => rfl, fun j => rfl⟩

theorem updateMetadata_ok_spec {s : ContractState} {sender id : Nat}
    {newHash : String} {s' : ContractState}
    (h : updateMetadata s sender id newHash = .ok ((), s')) :
    s.batchExists id = true ∧
    (s.batches id).ownerHistory.getLast? = some sender ∧
    s'.nextBatchId = s.nextBatchId ∧
    (∀ j, s'.batchExists j = s.batchExists j) ∧
    (∀ j, s'.batches j =
      if j = id then { s.batches id with ipfsHash := newHash }
      else s.batches j) := by
  unfold updateMetadata at h
  split at h
  · exact absurd h (by simp)
  · rename_i hex
    rw [Bool.not_eq_false] at hex
    split at h
    · exact absurd h (by simp)
    · rename_i owner hlast
      split at h
      · exact absurd h (by simp)
      · rename_i hown
        rw [not_not] at hown
        subst hown
        simp only [Except.ok.injEq, Prod.mk.injEq, true_and] at h
        subst h
        exact ⟨hex, hlast, rfl, fun j => rfl, fun j => rfl⟩

/-- Batch existence is monotone along one successful call. -/
theorem step_exists_mono {s s' : ContractState} (h : Step s s') (id : Nat)
    (hex : s.batchExists id = true) : s'.batchExists id = true := by
  cases h with
  | create _ _ _ _ _ h =>
      obtain ⟨_, _, _, hexists, _⟩ := createBatch_ok_spec h
      rw [hexists id]
      split <;> simp [hex]
  | transfer _ _ _ _ _ h =>
      obtain ⟨_, _, _, _, _, hexists, _⟩ := transferBatch_ok_spec h
      rw [hexists id, hex]
  | update _ _ _ _ h =>
      obtain ⟨_, _, _, hexists, _⟩ := updateMetadata_ok_spec h
      rw [hexists id, hex]

/-- Owner histories only ever grow (by appending) along one successful call. -/
theorem step_hist_extends {s s' : ContractState} (h : Step s s') (id : Nat) :
    ∃ t, (s'.batches id).ownerHistory = (s.batches id).ownerHistory ++ t := by
  cases h with
  | create _ _ _ _ _ h =>
      obtain ⟨_, _, _, _, hbat⟩ := createBatch_ok_spec h
      rw [hbat id]
      split
      · rename_i heq; subst heq; exact ⟨_, rfl⟩
      · exact ⟨[], by simp⟩
  | transfer _ _ _ _ _ h =>
      obtain ⟨_, _, _, _, _, _, hbat⟩ := transferBatch_ok_spec h
      rw [hbat id]
      split
      · rename_i heq; subst heq; exact ⟨_, rfl⟩
      · exact ⟨[], by simp⟩
  | update _ _ _ _ h =>
      obtain ⟨_, _, _, _, hbat⟩ := updateMetadata_ok_spec h
      rw [hbat id]
      split
      · rename_i heq; subst heq; exact ⟨[], by simp⟩
      · exact ⟨[], by simp⟩

theorem steps_exists_mono {s s' : ContractState} (h : Steps s s') (id : Nat)
    (hex : s.batchExists id = true) : s'.batchExists id = true := by
  induction h with
  | refl => exact hex
  | tail h h' ih => exact step_exists_mono h' id ih

theorem steps_hist_extends {s s' : ContractState} (h : Steps s s') (id : Nat) :
    ∃ t, (s'.batches id).ownerHistory = (s.batches id).ownerHistory ++ t := by
  induction h with
  | refl => exact ⟨[], by simp⟩
  | tail h h' ih =>
      obtain ⟨t₁, ht₁⟩ := ih
      obtain ⟨t₂, ht₂⟩ := step_hist_extends h' id
      exact ⟨t₁ ++ t₂, by rw [ht₂, ht₁, List.append_assoc]⟩

/-- Example state: one batch, created by address 5 at time 10 with hash "h". -/
def sA : ContractState :=
  match createBatch initState 5 10 "h" with
  | .ok (_, s') => s'
  | .error _ => initState

/-- Example state: batch 1 then transferred from 5 to 7 at time 20. -/
def sB : ContractState :=
  match transferBatch sA 5 20 1 7 with
  | .ok (_, s') => s'
  | .error _ => sA

/-- Example state: a second batch created by address 6 at time 30. -/
def sC : ContractState :=
  match createBatch sB 6 30 "" with
  | .ok (_, s') => s'
  | .error _ => sB

theorem createBatch_initState_eq : createBatch initState 5 10 "h" = .ok (1, sA) := rfl

theorem transferBatch_sA_eq : transferBatch sA 5 20 1 7 = .ok ((), sB) := rfl

theorem createBatch_sB_eq : createBatch sB 6 30 "" = .ok (2, sC) := rfl

theorem reachable_sA : Reachable sA :=
  Steps.tail (Steps.refl _) (Step.create _ 5 10 "h" 1 _ createBatch_initState_eq)

theorem reachable_sB : Reachable sB :=
  Steps.tail reachable_sA (Step.transfer _ 5 20 1 7 _ transferBatch_sA_eq)

theorem reachable_sC : Reachable sC :=
  Steps.tail reachable_sB (Step.create _ 6 30 "" 2 _ createBatch_sB_eq)

/-- A sequence of `createBatch` transactions (caller, block time, hash),
submitted in order; a reverting call leaves the state unchanged and
contributes no ID. -/
def runCreates : ContractState → List (Address × Nat × String) → List Nat × ContractState
  | s, [] => ([], s)
  | s, (sender, now, hash) :: rest =>
    match createBatch s sender now hash with
    | .ok (id, s') =>
        let r := runCreates s' rest
        (id :: r.1, r.2)
    | .error _ => runCreates s rest

theorem createBatch_isOk (s : ContractState) (sender now : Nat) (hash : String)
    (hb : s.nextBatchId + 1 ≤ UINT256_MAX) :
    ∃ s', createBatch s sender now hash = .ok (s.nextBatchId, s') := by
  unfold createBatch
  rw [if_neg (by omega)]
  exact ⟨_, rfl⟩

theorem runCreates_spec (calls : List (Address × Nat × String)) :
    ∀ s : ContractState, Inv s → s.nextBatchId + calls.length ≤ UINT256_MAX →
    (runCreates s calls).1 = List.range' s.nextBatchId calls.length ∧
    (runCreates s calls).2.nextBatchId = s.nextBatchId + calls.length ∧
    Inv (runCreates s calls).2 := by
  induction calls with
  | nil => exact fun s hinv _ => ⟨rfl, rfl, hinv⟩
  | cons c rest ih =>
      intro s hinv hb
      obtain ⟨sender, now, hash⟩ := c
      obtain ⟨s', hok⟩ := createBatch_isOk s sender now hash (by
        simp only [List.length_cons] at hb; omega)
      obtain ⟨_, _, hnext, _, _⟩ := createBatch_ok_spec hok
      have hinv' := createBatch_ok_inv hinv hok
      have hb' : s'.nextBatchId + rest.length ≤ UINT256_MAX := by
        rw [hnext]; simp only [List.length_cons] at hb; omega
      obtain ⟨hids, hfin, hinvf⟩ := ih s' hinv' hb'
      simp only [runCreates, hok, List.length_cons, List.range'_succ]
      exact ⟨by rw [hids, hnext], by rw [hfin, hnext]; omega, hinvf⟩

/-- C1: for every reachable state and every existing batch, `getOwnerHistory`
returns a non-empty list whose last element is the address returned by
`getCurrentOwner`; reachability closes this invariant under every operation
(`createBatch`, `transferBatch`, `updateMetadata`). -/
theorem claim_C1_owner_history_nonempty_last_is_current_owner
    (s : ContractState) (hs : Reachable s) (id : Nat)
    (hex : s.batchExists id = true) :
    ∃ hist owner, getOwnerHistory s id = .ok hist ∧ hist ≠ [] ∧
      getCurrentOwner s id = .ok owner ∧ hist.getLast? = some owner := by
  obtain ⟨h1, h2, h3⟩ := reachable_inv hs
  have hne := (h3 id hex).1
  obtain ⟨owner, howner⟩ : ∃ a, (s.batches id).ownerHistory.getLast? = some a := by
    cases hh : (s.batches id).ownerHistory.getLast? with
    | none => exact absurd (List.getLast?_eq_none_iff.mp hh) hne
    | some a => exact ⟨a, rfl⟩
  refine ⟨(s.batches id).ownerHistory, owner, ?_, hne, ?_, howner⟩
  · simp [getOwnerHistory, hex]
  · simp [getCurrentOwner, hex, howner]

theorem claim_C1_witness :
    sA.batchExists 1 = true ∧
    (∃ hist owner, getOwnerHistory sA 1 = .ok hist ∧ hist ≠ [] ∧
      getCurrentOwner sA 1 = .ok owner ∧ hist.getLast? = some owner) :=
  ⟨rfl, claim_C1_owner_history_nonempty_last_is_current_owner sA reachable_sA 1 rfl⟩

/-- C2: a successful `createBatch` allocates `nextBatchId` as the new ID,
initializes the owner history to exactly `[caller]`, stamps both timestamps
with the block time, stores the metadata reference, marks existence,
increments the counter by one and returns the new ID; and from the initial
state a sequence of N successful creates yields `getTotalBatches = N` and
IDs exactly `1..N`, with no gaps or repeats. -/
theorem claim_C2_createBatch_sequential_ids :
    (∀ (s : ContractState) (sender now : Nat) (hash : String), Inv s →
      s.nextBatchId + 1 ≤ UINT256_MAX →
      ∃ s', createBatch s sender now hash = .ok (s.nextBatchId, s') ∧
        s'.batches s.nextBatchId =
          ⟨s.nextBatchId, [sender], true, now, now, hash⟩ ∧
        s'.batchExists s.nextBatchId = true ∧
        s'.nextBatchId = s.nextBatchId + 1) ∧
    (∀ calls : List (Address × Nat × String), calls.length < UINT256_MAX →
      (runCreates initState calls).1 = List.range' 1 calls.length ∧
      getTotalBatches (runCreates initState calls).2 = .ok calls.length ∧
      (runCreates initState calls).1.Nodup) := by
  constructor
  · intro s sender now hash hinv hb
    obtain ⟨s', hok⟩ := createBatch_isOk s sender now hash hb
    obtain ⟨_, _, hnext, hexists, hbat⟩ := createBatch_ok_spec hok
    refine ⟨s', hok, ?_, ?_, hnext⟩
    · rw [hbat s.nextBatchId, if_pos rfl,
        (hinv.2.1 s.nextBatchId (le_refl _)).1]
      rfl
    · rw [hexists s.nextBatchId, if_pos rfl]
  · intro calls hb
    obtain ⟨hids, hfin, hinvf⟩ := runCreates_spec calls initState inv_init (by
      simp only [initState]; omega)
    refine ⟨hids, ?_, by rw [hids]; exact List.nodup_range' ..⟩
    simp only [getTotalBatches, initState] at hfin ⊢
    rw [hfin]
    simp

theorem claim_C2_witness :
    (∃ s', createBatch initState 5 10 "h" = .ok (initState.nextBatchId, s') ∧
      s'.batches initState.nextBatchId =
        ⟨initState.nextBatchId, [5], true, 10, 10, "h"⟩ ∧
      s'.batchExists initState.nextBatchId = true ∧
      s'.nextBatchId = initState.nextBatchId + 1) ∧
    ((runCreates initState [(5, 10, "a"), (6, 11, "b")]).1 = List.range' 1 2 ∧
      getTotalBatches (runCreates initState [(5, 10, "a"), (6, 11, "b")]).2 = .ok 2 ∧
      (runCreates initState [(5, 10, "a"), (6, 11, "b")]).1.Nodup) :=
  ⟨claim_C2_createBatch_sequential_ids.1 initState 5 10 "h" inv_init
      (by norm_num [initState, UINT256_MAX]),
    claim_C2_createBatch_sequential_ids.2 [(5, 10, "a"), (6, 11, "b")]
      (by norm_num [UINT256_MAX])⟩

theorem getCurrentOwner_ok_iff (s : ContractState) (id owner : Nat) :
    getCurrentOwner s id = .ok owner ↔
    s.batchExists id = true ∧
    (s.batches id).ownerHistory.getLast? = some owner := by
  unfold getCurrentOwner
  cases hex : s.batchExists id with
  | false => simp [hex]
  | true =>
      simp only [hex, Bool.true_eq_false, if_false]
      cases hl : (s.batches id).ownerHistory.getLast? with
      | none => simp
      | some a => simp

/-- The post-state a client observes after submitting `transferBatch`: on a
revert the chain rolls back to the pre-state. -/
def applyTransfer (s : ContractState) (sender now id newOwner : Nat) :
    ContractState :=
  match transferBatch s sender now id newOwner with
  | .ok (_, s') => s'
  | .error _ => s

/-- C3: `transferBatch` checks its preconditions in order, first violation
winning: missing batch fails `NotFound`; then a caller other than the
current owner fails `Unauthorized` (whatever `newOwner` is); then a zero
`newOwner` fails `InvalidArgument`; then `newOwner` equal to the current
owner fails `InvalidArgument`; and any failing call reverts, leaving the
observable state unchanged. -/
theorem claim_C3_transfer_precondition_order
    (s : ContractState) (sender now id newOwner : Nat) :
    (s.batchExists id = false →
      transferBatch s sender now id newOwner = .error .NotFound) ∧
    (∀ owner, getCurrentOwner s id = .ok owner → sender ≠ owner →
      transferBatch s sender now id newOwner = .error .Unauthorized) ∧
    (getCurrentOwner s id = .ok sender → newOwner = 0 →
      transferBatch s sender now id newOwner = .error .InvalidArgument) ∧
    (getCurrentOwner s id = .ok sender → newOwner ≠ 0 → newOwner = sender →
      transferBatch s sender now id newOwner = .error .InvalidArgument) ∧
    (∀ e, transferBatch s sender now id newOwner = .error e →
      applyTransfer s sender now id newOwner = s) := by
  refine ⟨?_, ?_, ?_, ?_, ?_⟩
  · intro hex
    unfold transferBatch
    rw [if_pos hex]
  · intro owner hok hne
    obtain ⟨hex, hl⟩ := (getCurrentOwner_ok_iff s id owner).mp hok
    unfold transferBatch
    rw [if_neg (by simp [hex])]
    simp only [hl]
    rw [if_pos (Ne.symm hne)]
  · intro hok hzero
    obtain ⟨hex, hl⟩ := (getCurrentOwner_ok_iff s id sender).mp hok
    unfold transferBatch
    rw [if_neg (by simp [hex])]
    simp only [hl]
    rw [if_neg (by simp), if_pos hzero]
  · intro hok hz hself
    obtain ⟨hex, hl⟩ := (getCurrentOwner_ok_iff s id sender).mp hok
    unfold transferBatch
    rw [if_neg (by simp [hex])]
    simp only [hl]
    rw [if_neg (by simp), if_neg hz, if_pos hself]
  · intro e he
    unfold applyTransfer
    rw [he]

theorem claim_C3_witness :
    (sB.batchExists 2 = false ∧ transferBatch sB 9 40 2 3 = .error .NotFound) ∧
    (getCurrentOwner sB 1 = .ok 7 ∧ 5 ≠ 7 ∧
      transferBatch sB 5 40 1 9 = .error .Unauthorized) ∧
    (getCurrentOwner sB 1 = .ok 7 ∧
      transferBatch sB 7 40 1 0 = .error .InvalidArgument) ∧
    (getCurrentOwner sB 1 = .ok 7 ∧ (7 : Nat) ≠ 0 ∧
      transferBatch sB 7 40 1 7 = .error .InvalidArgument) :=
  ⟨⟨rfl, (claim_C3_transfer_precondition_order sB 9 40 2 3).1 rfl⟩,
   ⟨rfl, by decide,
     (claim_C3_transfer_precondition_order sB 5 40 1 9).2.1 7 rfl (by decide)⟩,
   ⟨rfl, (claim_C3_transfer_precondition_order sB 7 40 1 0).2.2.1 rfl rfl⟩,
   ⟨rfl, by decide,
     (claim_C3_transfer_precondition_order sB 7 40 1 7).2.2.2.1 rfl
       (by decide) rfl⟩⟩

/-- C4: after a successful `transferBatch(id, X)` the current owner is `X`,
the owner count grew by exactly one, `lastTransferAt` is the block time,
`wasOwner(id, X)` holds, and it keeps holding after every further sequence
of successful operations. -/
theorem claim_C4_transfer_effects
    (s : ContractState) (sender now id X : Nat) (s' : ContractState)
    (h : transferBatch s sender now id X = .ok ((), s')) :
    getCurrentOwner s' id = .ok X ∧
    (∃ n, getOwnerCount s id = .ok n ∧ getOwnerCount s' id = .ok (n + 1)) ∧
    (s'.batches id).lastTransferAt = now ∧
    wasOwner s' id X = .ok true ∧
    (∀ s'', Steps s' s'' → wasOwner s'' id X = .ok true) := by
  obtain ⟨hex, hlast, hz, hns, hnext, hexists, hbat⟩ := transferBatch_ok_spec h
  have hex' : s'.batchExists id = true := by rw [hexists id, hex]
  have hb' : s'.batches id =
      { s.batches id with
          ownerHistory := (s.batches id).ownerHistory ++ [X]
          lastTransferAt := now } := by
    rw [hbat id, if_pos rfl]
  have hmem : X ∈ (s'.batches id).ownerHistory := by
    rw [hb']; simp
  refine ⟨?_, ?_, ?_, ?_, ?_⟩
  · rw [getCurrentOwner_ok_iff]
    exact ⟨hex', by rw [hb']; exact List.getLast?_concat _⟩
  · refine ⟨(s.batches id).ownerHistory.length, ?_, ?_⟩
    · unfold getOwnerCount; rw [if_neg (by simp [hex])]
    · unfold getOwnerCount
      rw [if_neg (by simp [hex']), hb']
      simp
  · rw [hb']
  · unfold wasOwner
    rw [if_neg (by simp [hex'])]
    simp only [Except.ok.injEq]
    exact List.elem_iff.mpr hmem
  · intro s'' hsteps
    have hex'' := steps_exists_mono hsteps id hex'
    obtain ⟨t, ht⟩ := steps_hist_extends hsteps id
    unfold wasOwner
    rw [if_neg (by simp [hex''])]
    simp only [Except.ok.injEq]
    exact List.elem_iff.mpr (by rw [ht]; exact List.mem_append_left _ hmem)

theorem claim_C4_witness :
    getCurrentOwner sB 1 = .ok 7 ∧
    (∃ n, getOwnerCount sA 1 = .ok n ∧ getOwnerCount sB 1 = .ok (n + 1)) ∧
    (sB.batches 1).lastTransferAt = 20 ∧
    wasOwner sB 1 7 = .ok true ∧
    (∀ s'', Steps sB s'' → wasOwner s'' 1 7 = .ok true) :=
  claim_C4_transfer_effects sA 5 20 1 7 sB transferBatch_sA_eq

/-- C5: on a batch ID that was never created, each of the five guarded
accessors fails `NotFound`, while `getTotalBatches` still succeeds (and
`batchExists`, being a total boolean map in the model, cannot fail at
all and is `false` there by hypothesis). -/
theorem claim_C5_accessors_not_found
    (s : ContractState) (hs : Reachable s) (id a : Nat)
    (hex : s.batchExists id = false) :
    getCurrentOwner s id = .error .NotFound ∧
    getOwnerHistory s id = .error .NotFound ∧
    getBatchInfo s id = .error .NotFound ∧
    getOwnerCount s id = .error .NotFound ∧
    wasOwner s id a = .error .NotFound ∧
    (∃ n, getTotalBatches s = .ok n) := by
  refine ⟨?_, ?_, ?_, ?_, ?_, ?_⟩
  · unfold getCurrentOwner; rw [if_pos hex]
  · unfold getOwnerHistory; rw [if_pos hex]
  · unfold getBatchInfo; rw [if_pos hex]
  · unfold getOwnerCount; rw [if_pos hex]
  · unfold wasOwner; rw [if_pos hex]
  · have h1 := (reachable_inv hs).1
    unfold getTotalBatches
    rw [if_neg (by omega)]
    exact ⟨_, rfl⟩

theorem claim_C5_witness :
    sA.batchExists 2 = false ∧
    (getCurrentOwner sA 2 = .error .NotFound ∧
      getOwnerHistory sA 2 = .error .NotFound ∧
      getBatchInfo sA 2 = .error .NotFound ∧
      getOwnerCount sA 2 = .error .NotFound ∧
      wasOwner sA 2 9 = .error .NotFound ∧
      (∃ n, getTotalBatches sA = .ok n)) :=
  ⟨rfl, claim_C5_accessors_not_found sA reachable_sA 2 9 rfl⟩

/-- C6: a successful `updateMetadata` happens only when the batch exists and
the caller is the current owner, replaces exactly the stored `ipfsHash`, and
leaves the owner history, both timestamps, the existence flag, the batch ID,
every other batch, the existence mapping and the counter unchanged. -/
theorem claim_C6_updateMetadata_frame
    (s : ContractState) (sender id : Nat) (newHash : String)
    (s' : ContractState)
    (h : updateMetadata s sender id newHash = .ok ((), s')) :
    s.batchExists id = true ∧ getCurrentOwner s id = .ok sender ∧
    (s'.batches id).ipfsHash = newHash ∧
    (s'.batches id).ownerHistory = (s.batches id).ownerHistory ∧
    (s'.batches id).createdAt = (s.batches id).createdAt ∧
    (s'.batches id).lastTransferAt = (s.batches id).lastTransferAt ∧
    (s'.batches id).exists_ = (s.batches id).exists_ ∧
    (s'.batches id).batchId = (s.batches id).batchId ∧
    (∀ j, j ≠ id → s'.batches j = s.batches j) ∧
    (∀ j, s'.batchExists j = s.batchExists j) ∧
    s'.nextBatchId = s.nextBatchId := by
  obtain ⟨hex, hlast, hnext, hexists, hbat⟩ := updateMetadata_ok_spec h
  have hb' : s'.batches id = { s.batches id with ipfsHash := newHash } := by
    rw [hbat id, if_pos rfl]
  refine ⟨hex, (getCurrentOwner_ok_iff s id sender).mpr ⟨hex, hlast⟩,
    by rw [hb'], by rw [hb'], by rw [hb'], by rw [hb'], by rw [hb'],
    by rw [hb'], fun j hj => by rw [hbat j, if_neg hj], hexists, hnext⟩

/-- Example state: the metadata of batch 1 updated by its owner 7. -/
def sD : ContractState :=
  match updateMetadata sB 7 1 "h2" with
  | .ok (_, s') => s'
  | .error _ => sB

theorem updateMetadata_sB_eq : updateMetadata sB 7 1 "h2" = .ok ((), sD) := rfl

theorem claim_C6_witness :
    sB.batchExists 1 = true ∧ getCurrentOwner sB 1 = .ok 7 ∧
    (sD.batches 1).ipfsHash = "h2" ∧
    (sD.batches 1).ownerHistory = (sB.batches 1).ownerHistory ∧
    (sD.batches 1).createdAt = (sB.batches 1).createdAt ∧
    (sD.batches 1).lastTransferAt = (sB.batches 1).lastTransferAt ∧
    (sD.batches 1).exists_ = (sB.batches 1).exists_ ∧
    (sD.batches 1).batchId = (sB.batches 1).batchId ∧
    (∀ j, j ≠ 1 → sD.batches j = sB.batches j) ∧
    (∀ j, sD.batchExists j = sB.batchExists j) ∧
    sD.nextBatchId = sB.nextBatchId :=
  claim_C6_updateMetadata_frame sB 7 1 "h2" sD updateMetadata_sB_eq

end BatchTracker

namespace Client

open BatchTracker

/-- One entry of the `attributes` array of a metadata document
(`pinata.ts` lines 22-25): a trait name and a string-or-number value. -/
inductive AttrValue where
  | str (s : String)
  | num (n : Int)
deriving DecidableEq

structure Attr where
  trait_type : String
  value : AttrValue
deriving DecidableEq

/-- The batch_properties component of `BatchMetadata` (`pinata.ts` lines 26-34). -/
structure BatchProperties where
  origin : Option String
  quality_grade : Option String
  harvest_date : Option String
  expiry_date : Option String
  weight : Option String
  location : Option String
  certifications : Option (List String)
deriving DecidableEq

/-- The empty-object fallback used when no properties are supplied. -/
def emptyBatchProperties : BatchProperties :=
  ⟨none, none, none, none, none, none, none⟩

/-- The off-chain metadata document, interface `BatchMetadata`
(`pinata.ts` lines 18-38). -/
structure BatchMetadata where
  name : String
  description : String
  image : Option String
  attributes : Option (List Attr)
  batch_properties : Option BatchProperties
  external_url : Option String
  created_at : String
  version : String
deriving DecidableEq

/-- Interface `BatchFormData` (`types/batch.ts` lines 23-39); the `image`
file is abstracted by an identifying string. -/
structure BatchFormData where
  name : String
  description : String
  origin : Option String
  quality_grade : Option String
  harvest_date : Option String
  expiry_date : Option String
  weight : Option String
  location : Option String
  certifications : Option (List String)
  image : Option String
  external_url : Option String
  attributes : Option (List Attr)
deriving DecidableEq

/-- Interface `BatchInfo` of the client (`contract.ts` lines 121-129):
`ipfsHash` is optional (`result[5] || undefined` maps the empty string to
absent) and `metadata` is an optional enrichment. -/
structure BatchInfo where
  batchId : Nat
  currentOwner : Address
  ownerCount : Nat
  createdAt : Nat
  lastTransferAt : Nat
  ipfsHash : Option String
  metadata : Option BatchMetadata
deriving DecidableEq

/-- What an IPFS gateway fetch can yield: a JSON document of the metadata
shape, or some other content (plain text, unrelated JSON, an image). -/
inductive IpfsContent where
  | json (m : BatchMetadata)
  | other
deriving DecidableEq

/-- Oracle for the gateway: content or a network/HTTP failure per hash. -/
abbrev IpfsFetch := String → Except String IpfsContent

/-- Function `getBatchInfo` of the client (`contract.ts` lines 314-333): decodes the
on-chain tuple into the client record, mapping an empty `ipfsHash` to
`undefined` and leaving `metadata` absent. -/
def getBatchInfo (s : ContractState) (id : Nat) : Except Err BatchInfo :=
  match BatchTracker.getBatchInfo s id with
  | .error e => .error e
  | .ok t =>
      .ok ⟨t.batchId, t.currentOwner, t.ownerCount, t.createdAt,
        t.lastTransferAt,
        if t.ipfsHash = "" then none else some t.ipfsHash, none⟩

namespace PinataService

/-- Method `PinataService.getBatchMetadata` (`pinata.ts` lines 169-184): fetch the
content, return it only if it looks like batch metadata (truthy `name` and
`description`), and swallow every failure into `null`. -/
def getBatchMetadata (fetch : IpfsFetch) (ipfsHash : String) :
    Option BatchMetadata :=
  match fetch ipfsHash with
  | .error _ => none
  | .ok .other => none
  | .ok (.json m) =>
      if m.name ≠ "" ∧ m.description ≠ "" then some m else none

/-- Method `PinataService.createBatchMetadata` (`pinata.ts` lines 209-230).  The
document it builds has no `external_url` field at all; `image` is set only
for a truthy image hash. -/
def createBatchMetadata (gateway nowIso name description : String)
    (imageHash : Option String) (properties : Option BatchProperties)
    (attributes : Option (List Attr)) : BatchMetadata :=
  { name := name
    description := description
    created_at := nowIso
    version := "1.0"
    batch_properties := some (properties.getD emptyBatchProperties)
    attributes := some (attributes.getD [])
    image := imageHash.bind fun h =>
      if h = "" then none else some (gateway ++ "/ipfs/" ++ h)
    external_url := none }

end PinataService

/-- Observable actions of the creation-with-metadata sequence, in the order
they are performed. -/
inductive ClientEvent where
  | imageUploaded (h : String)
  | metadataUploaded (h : String) (doc : BatchMetadata)
  | chainCreateSubmitted (ref : String)
  | sideIndexRecorded (batchId : Nat) (ref : String)
deriving DecidableEq

/-- Oracles for the collaborators of the creation sequence: the Pinata file
and JSON uploads, the on-chain `createBatch` round trip (submission, wait,
event decoding, yielding the new batch ID), the current ISO time and the
gateway base URL. -/
structure UploadEnv where
  uploadFile : Except String String
  uploadJSON : BatchMetadata → Except String String
  chainCreate : String → Except String Nat
  nowIso : String
  gateway : String

namespace PinataService

/-- Method `PinataService.uploadBatchWithAssets` (`pinata.ts` lines 235-270): it
declares exactly five parameters.  The image, when present, is uploaded
first; the metadata document embedding its content address is built and
uploaded second; any failure propagates, aborting the rest.  The returned
trace records the completed actions in order. -/
def uploadBatchWithAssets (env : UploadEnv) (name description : String)
    (image : Option String) (properties : Option BatchProperties)
    (attributes : Option (List Attr)) :
    Except String (String × Option String × BatchMetadata) × List ClientEvent :=
  match image with
  | some _ =>
    match env.uploadFile with
    | .error e => (.error e, [])
    | .ok ih =>
      match env.uploadJSON (createBatchMetadata env.gateway env.nowIso name
          description (some ih) properties attributes) with
      | .error e => (.error e, [.imageUploaded ih])
      | .ok mh =>
          (.ok (mh, some ih, createBatchMetadata env.gateway env.nowIso name
              description (some ih) properties attributes),
            [.imageUploaded ih,
             .metadataUploaded mh (createBatchMetadata env.gateway env.nowIso
               name description (some ih) properties attributes)])
  | none =>
    match env.uploadJSON (createBatchMetadata env.gateway env.nowIso name
        description none properties attributes) with
    | .error e => (.error e, [])
    | .ok mh =>
        (.ok (mh, none, createBatchMetadata env.gateway env.nowIso name
            description none properties attributes),
          [.metadataUploaded mh (createBatchMetadata env.gateway env.nowIso
            name description none properties attributes)])

end PinataService

/-- Function `createBatchWithMetadata` (`contract.ts` lines 170-242): builds the
`batch_properties` object from the form, runs the off-chain upload sequence,
then submits `createBatch(metadataHash)` on chain and finally records the
`batchId -> metadataHash` mapping in the local side-index
(`MetadataStorage.setBatchMetadata`).  The call site passes
`formData.external_url` as a sixth argument, but `uploadBatchWithAssets`
declares only five parameters, so JavaScript call semantics discard it. -/
def createBatchWithMetadata (env : UploadEnv) (fd : BatchFormData) :
    Except String Nat × List ClientEvent :=
  let props : BatchProperties :=
    ⟨fd.origin, fd.quality_grade, fd.harvest_date, fd.expiry_date, fd.weight,
     fd.location, fd.certifications⟩
  match PinataService.uploadBatchWithAssets env fd.name fd.description
      fd.image (some props) fd.attributes with
  | (.error e, tr) => (.error e, tr)
  | (.ok (metadataHash, _, _), tr) =>
    match env.chainCreate metadataHash with
    | .error e => (.error e, tr ++ [.chainCreateSubmitted metadataHash])
    | .ok batchId =>
        (.ok batchId,
          tr ++ [.chainCreateSubmitted metadataHash,
                 .sideIndexRecorded batchId metadataHash])

/-- Function `getBatchInfoWithMetadata` (`contract.ts` lines 335-352): fetch the
on-chain record; only when a metadata reference is present, try the
off-chain fetch, storing whatever `getBatchMetadata` yields; a fetch/parse
failure is logged and swallowed.  The second component records the hashes
for which a fetch was attempted. -/
def getBatchInfoWithMetadata (s : ContractState) (fetch : IpfsFetch)
    (id : Nat) : Except Err BatchInfo × List String :=
  match getBatchInfo s id with
  | .error e => (.error e, [])
  | .ok info =>
    match info.ipfsHash with
    | none => (.ok info, [])
    | some h =>
        (.ok { info with metadata := PinataService.getBatchMetadata fetch h },
          [h])

/-- The loop body of `getUserOwnedBatches` (`contract.ts` lines 382-394),
over an explicit list of candidate IDs: a failing `getCurrentOwner` (or
`getBatchInfo`) is caught and the ID skipped silently; matching batches are
appended in iteration order.  (`toLowerCase` address normalization is the
identity on the abstract addresses.) -/
def getUserOwnedBatchesAux (s : ContractState) (user : Address) :
    List Nat → List BatchInfo
  | [] => []
  | i :: rest =>
    match BatchTracker.getCurrentOwner s i with
    | .error _ => getUserOwnedBatchesAux s user rest
    | .ok owner =>
      if owner = user then
        match getBatchInfo s i with
        | .error _ => getUserOwnedBatchesAux s user rest
        | .ok info => info :: getUserOwnedBatchesAux s user rest
      else getUserOwnedBatchesAux s user rest

/-- Function `getUserOwnedBatches` (`contract.ts` lines 372-397): read the total,
then scan IDs 1..total in ascending order. -/
def getUserOwnedBatches (s : ContractState) (user : Address) :
    Except Err (List BatchInfo) :=
  match BatchTracker.getTotalBatches s with
  | .error e => .error e
  | .ok total => .ok (getUserOwnedBatchesAux s user (List.range' 1 total))

/-- The result of the enrichment read, as a function of the decoded
on-chain record. -/
theorem getBatchInfoWithMetadata_eq (s : ContractState) (fetch : IpfsFetch)
    (id : Nat) (info : BatchInfo) (h : getBatchInfo s id = .ok info) :
    getBatchInfoWithMetadata s fetch id =
      match info.ipfsHash with
      | none => (.ok info, [])
      | some hash =>
          (.ok { info with
              metadata := PinataService.getBatchMetadata fetch hash },
            [hash]) := by
  unfold getBatchInfoWithMetadata
  rw [h]

theorem getBatchInfo_metadata_none (s : ContractState) (id : Nat)
    (info : BatchInfo) (h : getBatchInfo s id = .ok info) :
    info.metadata = none := by
  unfold getBatchInfo at h
  cases hbi : BatchTracker.getBatchInfo s id with
  | error e => rw [hbi] at h; exact absurd h (by simp)
  | ok t =>
      rw [hbi] at h
      simp only [Except.ok.injEq] at h
      rw [← h]

/-- C7: when the on-chain read succeeds, `getBatchInfoWithMetadata` succeeds
for every behavior of the off-chain store, preserving every on-chain field;
it attempts a fetch exactly when a non-empty metadata reference is present,
and an off-chain fetch failure leaves `metadata` absent instead of failing
the call. -/
theorem claim_C7_metadata_enrichment_degrades_gracefully
    (s : ContractState) (fetch : IpfsFetch) (id : Nat) (info : BatchInfo)
    (h : getBatchInfo s id = .ok info) :
    ∃ info', (getBatchInfoWithMetadata s fetch id).1 = .ok info' ∧
      info'.batchId = info.batchId ∧
      info'.currentOwner = info.currentOwner ∧
      info'.ownerCount = info.ownerCount ∧
      info'.createdAt = info.createdAt ∧
      info'.lastTransferAt = info.lastTransferAt ∧
      info'.ipfsHash = info.ipfsHash ∧
      (info.ipfsHash = none →
        (getBatchInfoWithMetadata s fetch id).2 = [] ∧ info'.metadata = none) ∧
      (∀ hash, info.ipfsHash = some hash →
        (getBatchInfoWithMetadata s fetch id).2 = [hash] ∧
        info'.metadata = PinataService.getBatchMetadata fetch hash) ∧
      (∀ hash e, info.ipfsHash = some hash → fetch hash = .error e →
        info'.metadata = none) := by
  have hmd := getBatchInfo_metadata_none s id info h
  have heq := getBatchInfoWithMetadata_eq s fetch id info h
  cases hh : info.ipfsHash with
  | none =>
      rw [hh] at heq
      have heq' : getBatchInfoWithMetadata s fetch id = (.ok info, []) := heq
      exact ⟨info, by rw [heq'], rfl, rfl, rfl, rfl, rfl, hh,
        fun _ => ⟨by rw [heq'], hmd⟩,
        fun hash hc => absurd hc (by simp),
        fun hash e hc hfe => absurd hc (by simp)⟩
  | some hash =>
      rw [hh] at heq
      have heq' : getBatchInfoWithMetadata s fetch id =
          (.ok ⟨info.batchId, info.currentOwner, info.ownerCount,
            info.createdAt, info.lastTransferAt, some hash,
            PinataService.getBatchMetadata fetch hash⟩, [hash]) := heq
      refine ⟨⟨info.batchId, info.currentOwner, info.ownerCount,
          info.createdAt, info.lastTransferAt, some hash,
          PinataService.getBatchMetadata fetch hash⟩,
        by rw [heq'], rfl, rfl, rfl, rfl, rfl, rfl,
        fun hc => absurd hc (by simp),
        fun hash' hc => ?_, fun hash' e hc hfe => ?_⟩
      · obtain rfl : hash = hash' := by simpa using hc
        exact ⟨by rw [heq'], rfl⟩
      · obtain rfl : hash = hash' := by simpa using hc
        show PinataService.getBatchMetadata fetch hash = none
        unfold PinataService.getBatchMetadata
        rw [hfe]

/-- A gateway oracle that always fails. -/
def fetchFail : IpfsFetch := fun _ => .error "gateway down"

theorem claim_C7_witness :
    getBatchInfo sA 1 = .ok ⟨1, 5, 1, 10, 10, some "h", none⟩ ∧
    (∃ info', (getBatchInfoWithMetadata sA fetchFail 1).1 = .ok info' ∧
      info'.batchId = 1 ∧ info'.currentOwner = 5 ∧ info'.ownerCount = 1 ∧
      info'.createdAt = 10 ∧ info'.lastTransferAt = 10 ∧
      info'.ipfsHash = some "h" ∧
      ((some "h" : Option String) = none →
        (getBatchInfoWithMetadata sA fetchFail 1).2 = [] ∧
        info'.metadata = none) ∧
      (∀ hash, (some "h" : Option String) = some hash →
        (getBatchInfoWithMetadata sA fetchFail 1).2 = [hash] ∧
        info'.metadata = PinataService.getBatchMetadata fetchFail hash) ∧
      (∀ hash e, (some "h" : Option String) = some hash →
        fetchFail hash = .error e → info'.metadata = none)) :=
  ⟨rfl, claim_C7_metadata_enrichment_degrades_gracefully sA fetchFail 1
    ⟨1, 5, 1, 10, 10, some "h", none⟩ rfl⟩

/-- The decision made for one candidate ID by the ownership scan: the batch
record, when the ID resolves to a current owner equal to the queried user. -/
def ownedFilter (s : ContractState) (user : Address) (i : Nat) :
    Option BatchInfo :=
  match BatchTracker.getCurrentOwner s i with
  | .error _ => none
  | .ok owner =>
    match getBatchInfo s i with
    | .error _ => none
    | .ok info => if owner = user then some info else none

theorem getUserOwnedBatchesAux_eq_filterMap (s : ContractState)
    (user : Address) : ∀ l : List Nat,
    getUserOwnedBatchesAux s user l = l.filterMap (ownedFilter s user) := by
  intro l
  induction l with
  | nil => rfl
  | cons i rest ih =>
      simp only [getUserOwnedBatchesAux, List.filterMap_cons, ownedFilter]
      cases hco : BatchTracker.getCurrentOwner s i with
      | error e => simpa using ih
      | ok owner =>
          cases hbi : getBatchInfo s i with
          | error e =>
              by_cases howner : owner = user
              · simp [howner, ih]
              · simp [howner, ih]
          | ok info =>
              by_cases howner : owner = user
              · simp [howner, ih]
              · simp [howner, ih]

theorem getCurrentOwner_ok_getBatchInfo (s : ContractState) (i owner : Nat)
    (h : BatchTracker.getCurrentOwner s i = .ok owner) :
    ∃ info, getBatchInfo s i = .ok info ∧ info.currentOwner = owner ∧
      info.batchId = (s.batches i).batchId := by
  obtain ⟨hex, hl⟩ := (getCurrentOwner_ok_iff s i owner).mp h
  unfold getBatchInfo BatchTracker.getBatchInfo
  rw [if_neg (by simp [hex])]
  simp only [hl]
  exact ⟨_, rfl, rfl, rfl⟩

theorem filterMap_sublist_of_eq {α : Type} (g : α → Option α) :
    ∀ l : List α, (∀ a ∈ l, ∀ b, g a = some b → b = a) →
    List.Sublist (l.filterMap g) l := by
  intro l
  induction l with
  | nil => intro _; simp
  | cons a rest ih =>
      intro hg
      rw [List.filterMap_cons]
      cases hga : g a with
      | none =>
          exact (ih fun x hx => hg x (List.mem_cons_of_mem a hx)).cons a
      | some b =>
          have hba : b = a := hg a (List.mem_cons_self a rest) b hga
          rw [hba]
          exact (ih fun x hx => hg x (List.mem_cons_of_mem a hx)).cons₂ a

/-- C9: `getUserOwnedBatches` succeeds whenever `getTotalBatches` does,
scanning IDs 1..total in order and keeping exactly the records whose
current owner equals the queried user; the result is ascending in batch
ID, every returned record names the user as current owner, and every
matching ID in range contributes its record. -/
theorem claim_C9_user_owned_batches_scan
    (s : ContractState) (hs : Reachable s) (user : Address) (total : Nat)
    (htot : BatchTracker.getTotalBatches s = .ok total) :
    ∃ l, getUserOwnedBatches s user = .ok l ∧
      l = (List.range' 1 total).filterMap (ownedFilter s user) ∧
      (∀ info ∈ l, info.currentOwner = user) ∧
      (∀ i ∈ List.range' 1 total, BatchTracker.getCurrentOwner s i = .ok user →
        ∃ info, getBatchInfo s i = .ok info ∧ info ∈ l) ∧
      List.Pairwise (· < ·) (l.map (fun info => info.batchId)) := by
  obtain ⟨h1, h2, h3⟩ := reachable_inv hs
  have hmain : getUserOwnedBatches s user =
      .ok ((List.range' 1 total).filterMap (ownedFilter s user)) := by
    unfold getUserOwnedBatches
    rw [htot]
    show Except.ok (getUserOwnedBatchesAux s user (List.range' 1 total)) = _
    rw [getUserOwnedBatchesAux_eq_filterMap]
  have hshape : ∀ i b, ownedFilter s user i = some b →
      BatchTracker.getCurrentOwner s i = .ok user ∧
      getBatchInfo s i = .ok b ∧ b.currentOwner = user ∧ b.batchId = i := by
    intro i b hb
    unfold ownedFilter at hb
    split at hb
    · exact absurd hb (by simp)
    · rename_i owner hco
      split at hb
      · exact absurd hb (by simp)
      · rename_i info hbi
        split at hb
        · rename_i howner
          obtain rfl : info = b := by simpa using hb
          subst howner
          obtain ⟨info', hinfo', hown', hid'⟩ :=
            getCurrentOwner_ok_getBatchInfo s i owner hco
          rw [hbi] at hinfo'
          obtain rfl : info = info' := by simpa using hinfo'
          refine ⟨hco, hbi, hown', ?_⟩
          rw [hid']
          have hex := ((getCurrentOwner_ok_iff s i owner).mp hco).1
          exact (h3 i hex).2.1
        · exact absurd hb (by simp)
  refine ⟨_, hmain, rfl, ?_, ?_, ?_⟩
  · intro info hmem
    obtain ⟨i, _, hb⟩ := List.mem_filterMap.mp hmem
    exact (hshape i info hb).2.2.1
  · intro i hi hco
    obtain ⟨info, hinfo, hown, hid⟩ :=
      getCurrentOwner_ok_getBatchInfo s i user hco
    refine ⟨info, hinfo, List.mem_filterMap.mpr ⟨i, hi, ?_⟩⟩
    unfold ownedFilter
    rw [hco, hinfo]
    show (if user = user then some info else none) = some info
    rw [if_pos rfl]
  · rw [List.map_filterMap]
    have hsub : List.Sublist
        ((List.range' 1 total).filterMap
          (fun i => (ownedFilter s user i).map fun info => info.batchId))
        (List.range' 1 total) := by
      refine filterMap_sublist_of_eq _ _ ?_
      intro i _ b hb
      cases hof : ownedFilter s user i with
      | none => rw [hof] at hb; exact absurd hb (by simp)
      | some info =>
          rw [hof] at hb
          have hb' : info.batchId = b := by simpa using hb
          rw [← hb']
          exact (hshape i info hof).2.2.2
    exact (List.pairwise_lt_range' ..).sublist hsub
theorem claim_C9_witness :
    BatchTracker.getTotalBatches sC = .ok 2 ∧
    (∃ l, getUserOwnedBatches sC 7 = .ok l ∧
      l = (List.range' 1 2).filterMap (ownedFilter sC 7) ∧
      (∀ info ∈ l, info.currentOwner = 7) ∧
      (∀ i ∈ List.range' 1 2, BatchTracker.getCurrentOwner sC i = .ok 7 →
        ∃ info, getBatchInfo sC i = .ok info ∧ info ∈ l) ∧
      List.Pairwise (· < ·) (l.map (fun info => info.batchId))) :=
  ⟨rfl, claim_C9_user_owned_batches_scan sC reachable_sC 7 2 rfl⟩

/-- The off-chain stage of `createBatchWithMetadata`: the
`uploadBatchWithAssets` call exactly as the call site instantiates it
(the sixth argument, `formData.external_url`, having been discarded by
JavaScript arity). -/
def uploadStage (env : UploadEnv) (fd : BatchFormData) :
    Except String (String × Option String × BatchMetadata) × List ClientEvent :=
  PinataService.uploadBatchWithAssets env fd.name fd.description fd.image
    (some ⟨fd.origin, fd.quality_grade, fd.harvest_date, fd.expiry_date,
      fd.weight, fd.location, fd.certifications⟩) fd.attributes

theorem createBatchWithMetadata_eq (env : UploadEnv) (fd : BatchFormData) :
    createBatchWithMetadata env fd =
      match uploadStage env fd with
      | (.error e, tr) => (.error e, tr)
      | (.ok (mh, _, _), tr) =>
        match env.chainCreate mh with
        | .error e => (.error e, tr ++ [.chainCreateSubmitted mh])
        | .ok bid =>
            (.ok bid, tr ++ [.chainCreateSubmitted mh,
                             .sideIndexRecorded bid mh]) := rfl

theorem uploadBatchWithAssets_no_chainCreate (env : UploadEnv)
    (name description : String) (image : Option String)
    (properties : Option BatchProperties) (attributes : Option (List Attr))
    (ref : String) :
    ClientEvent.chainCreateSubmitted ref ∉
      (PinataService.uploadBatchWithAssets env name description image
        properties attributes).2 := by
  unfold PinataService.uploadBatchWithAssets
  cases image with
  | none =>
      cases hj : env.uploadJSON (PinataService.createBatchMetadata env.gateway
          env.nowIso name description none properties attributes) with
      | error e => simp [hj]
      | ok mh => simp [hj]
  | some f =>
      cases hf : env.uploadFile with
      | error e => simp [hf]
      | ok ih =>
          cases hj : env.uploadJSON (PinataService.createBatchMetadata
              env.gateway env.nowIso name description (some ih) properties
              attributes) with
          | error e => simp [hf, hj]
          | ok mh => simp [hf, hj]

theorem uploadBatchWithAssets_metadataUploaded (env : UploadEnv)
    (name description : String) (image : Option String)
    (properties : Option BatchProperties) (attributes : Option (List Attr))
    (mh : String) (md : BatchMetadata)
    (hmem : ClientEvent.metadataUploaded mh md ∈
      (PinataService.uploadBatchWithAssets env name description image
        properties attributes).2) :
    md.external_url = none ∧
    (∀ f, image = some f →
      ∃ ih, env.uploadFile = .ok ih ∧
        (PinataService.uploadBatchWithAssets env name description image
          properties attributes).2.head? =
          some (ClientEvent.imageUploaded ih) ∧
        md.image = (if ih = "" then none
          else some (env.gateway ++ "/ipfs/" ++ ih))) := by
  unfold PinataService.uploadBatchWithAssets at hmem ⊢
  cases image with
  | none =>
      cases hj : env.uploadJSON (PinataService.createBatchMetadata env.gateway
          env.nowIso name description none properties attributes) with
      | error e => rw [hj] at hmem; simp at hmem
      | ok mh2 =>
          rw [hj] at hmem
          simp only [List.mem_singleton, ClientEvent.metadataUploaded.injEq]
            at hmem
          obtain ⟨rfl, rfl⟩ := hmem
          exact ⟨rfl, fun f hf => absurd hf (by simp)⟩
  | some f0 =>
      cases hf : env.uploadFile with
      | error e => rw [hf] at hmem; simp at hmem
      | ok ih =>
          cases hj : env.uploadJSON (PinataService.createBatchMetadata
              env.gateway env.nowIso name description (some ih) properties
              attributes) with
          | error e => simp [hf, hj] at hmem
          | ok mh2 =>
              simp only [hf, hj, List.mem_cons, List.mem_singleton,
                ClientEvent.metadataUploaded.injEq, List.not_mem_nil,
                or_false, reduceCtorEq, false_or] at hmem
              obtain ⟨rfl, rfl⟩ := hmem
              exact ⟨rfl, fun f hf' => ⟨ih, rfl, by simp [hf, hj], rfl⟩⟩

/-- C8: in `createBatchWithMetadata` the chain call happens only after the
whole off-chain upload stage succeeded (so an off-chain failure aborts the
operation with no on-chain submission in the trace); when an image is
supplied, it is uploaded first and the uploaded metadata document embeds its
content address; and a successful result means the side-index record for the
returned batch ID and the uploaded metadata reference was written. -/
theorem claim_C8_offchain_first_then_chain_then_sideindex
    (env : UploadEnv) (fd : BatchFormData) :
    (∀ ref, ClientEvent.chainCreateSubmitted ref ∈
        (createBatchWithMetadata env fd).2 →
      ∃ ihash md, (uploadStage env fd).1 = .ok (ref, ihash, md)) ∧
    (∀ e tr, uploadStage env fd = (.error e, tr) →
      createBatchWithMetadata env fd = (.error e, tr) ∧
      (∀ ref, ClientEvent.chainCreateSubmitted ref ∉ tr)) ∧
    (∀ mh md, ClientEvent.metadataUploaded mh md ∈
        (createBatchWithMetadata env fd).2 →
      ∀ f, fd.image = some f →
      ∃ ihash, env.uploadFile = .ok ihash ∧
        (createBatchWithMetadata env fd).2.head? =
          some (ClientEvent.imageUploaded ihash) ∧
        md.image = (if ihash = "" then none
          else some (env.gateway ++ "/ipfs/" ++ ihash))) ∧
    (∀ bid, (createBatchWithMetadata env fd).1 = .ok bid →
      ∃ mh ihash md, (uploadStage env fd).1 = .ok (mh, ihash, md) ∧
        env.chainCreate mh = .ok bid ∧
        ClientEvent.sideIndexRecorded bid mh ∈
          (createBatchWithMetadata env fd).2) := by
  have hceq := createBatchWithMetadata_eq env fd
  rcases hup : uploadStage env fd with ⟨r, tr⟩
  rw [hup] at hceq
  have hnc : ∀ ref, ClientEvent.chainCreateSubmitted ref ∉ tr := by
    intro ref
    have := uploadBatchWithAssets_no_chainCreate env fd.name fd.description
      fd.image (some ⟨fd.origin, fd.quality_grade, fd.harvest_date,
        fd.expiry_date, fd.weight, fd.location, fd.certifications⟩)
      fd.attributes ref
    have hup2 : (uploadStage env fd).2 = tr := by rw [hup]
    rw [← hup2]
    exact this
  have hmdtr : ∀ mh md, ClientEvent.metadataUploaded mh md ∈ tr →
      md.external_url = none ∧
      (∀ f, fd.image = some f →
        ∃ ihash, env.uploadFile = .ok ihash ∧
          tr.head? = some (ClientEvent.imageUploaded ihash) ∧
          md.image = (if ihash = "" then none
            else some (env.gateway ++ "/ipfs/" ++ ihash))) := by
    intro mh md hmem
    have hup2 : (uploadStage env fd).2 = tr := by rw [hup]
    obtain ⟨hext, himg⟩ := uploadBatchWithAssets_metadataUploaded env fd.name
      fd.description fd.image (some ⟨fd.origin, fd.quality_grade,
        fd.harvest_date, fd.expiry_date, fd.weight, fd.location,
        fd.certifications⟩) fd.attributes mh md (by rw [← hup2] at hmem; exact hmem)
    refine ⟨hext, fun f hf => ?_⟩
    obtain ⟨ihash, h1, h2, h3⟩ := himg f hf
    exact ⟨ihash, h1, by rw [← hup2]; exact h2, h3⟩
  cases r with
  | error e =>
      have hceq' : createBatchWithMetadata env fd = (.error e, tr) := hceq
      refine ⟨?_, ?_, ?_, ?_⟩
      · intro ref hmem
        rw [hceq'] at hmem
        exact absurd hmem (hnc ref)
      · intro e' tr' hup'
        have he := congrArg Prod.fst hup'
        have ht := congrArg Prod.snd hup'
        obtain rfl : e = e' := by simpa using he
        obtain rfl : tr = tr' := ht
        exact ⟨hceq', hnc⟩
      · intro mh md hmem f hf
        rw [hceq'] at hmem
        obtain ⟨ihash, h1, h2, h3⟩ := (hmdtr mh md hmem).2 f hf
        exact ⟨ihash, h1, by rw [hceq']; exact h2, h3⟩
      · intro bid hres
        rw [hceq'] at hres
        exact absurd hres (by simp)
  | ok t =>
      obtain ⟨mh0, ihash0, md0⟩ := t
      have hceq2 : createBatchWithMetadata env fd =
          match env.chainCreate mh0 with
          | .error e => (.error e, tr ++ [.chainCreateSubmitted mh0])
          | .ok bid => (.ok bid, tr ++ [.chainCreateSubmitted mh0,
              .sideIndexRecorded bid mh0]) := hceq
      cases hcc : env.chainCreate mh0 with
      | error e2 =>
          rw [hcc] at hceq2
          have hceq' : createBatchWithMetadata env fd =
              (.error e2, tr ++ [.chainCreateSubmitted mh0]) := hceq2
          refine ⟨?_, ?_, ?_, ?_⟩
          · intro ref hmem
            rw [hceq'] at hmem
            rcases List.mem_append.mp hmem with hin | hin
            · exact absurd hin (hnc ref)
            · obtain rfl : ref = mh0 := by simpa using hin
              exact ⟨ihash0, md0, rfl⟩
          · intro e' tr' hup'
            exact absurd (congrArg Prod.fst hup') (by simp)
          · intro mh md hmem f hf
            rw [hceq'] at hmem
            rcases List.mem_append.mp hmem with hin | hin
            · obtain ⟨ihash, h1, h2, h3⟩ := (hmdtr mh md hin).2 f hf
              refine ⟨ihash, h1, ?_, h3⟩
              rw [hceq']
              cases htr : tr with
              | nil => rw [htr] at h2; exact absurd h2 (by simp)
              | cons hd tl => rw [htr] at h2; simpa using h2
            · exact absurd hin (by simp)
          · intro bid hres
            rw [hceq'] at hres
            exact absurd hres (by simp)
      | ok bid0 =>
          rw [hcc] at hceq2
          have hceq' : createBatchWithMetadata env fd =
              (.ok bid0, tr ++ [.chainCreateSubmitted mh0,
                .sideIndexRecorded bid0 mh0]) := hceq2
          refine ⟨?_, ?_, ?_, ?_⟩
          · intro ref hmem
            rw [hceq'] at hmem
            rcases List.mem_append.mp hmem with hin | hin
            · exact absurd hin (hnc ref)
            · obtain rfl : ref = mh0 := by
                rcases List.mem_cons.mp hin with h | h
                · simpa using h
                · exact absurd h (by simp)
              exact ⟨ihash0, md0, rfl⟩
          · intro e' tr' hup'
            exact absurd (congrArg Prod.fst hup') (by simp)
          · intro mh md hmem f hf
            rw [hceq'] at hmem
            rcases List.mem_append.mp hmem with hin | hin
            · obtain ⟨ihash, h1, h2, h3⟩ := (hmdtr mh md hin).2 f hf
              refine ⟨ihash, h1, ?_, h3⟩
              rw [hceq']
              cases htr : tr with
              | nil => rw [htr] at h2; exact absurd h2 (by simp)
              | cons hd tl => rw [htr] at h2; simpa using h2
            · rcases List.mem_cons.mp hin with h | h
              · exact absurd h (by simp)
              · exact absurd h (by simp)
          · intro bid hres
            rw [hceq'] at hres
            obtain rfl : bid0 = bid := by simpa using hres
            refine ⟨mh0, ihash0, md0, rfl, hcc, ?_⟩
            rw [hceq']
            simp

/-- A fully successful collaborator environment for the examples. -/
def envX : UploadEnv :=
  ⟨.ok "imgHash", fun _ => .ok "metaHash", fun _ => .ok 1,
    "2024-01-01T00:00:00.000Z", "https://gateway.pinata.cloud"⟩

/-- An example form submission carrying a non-empty `external_url`. -/
def fdX : BatchFormData :=
  ⟨"Wheat", "Premium wheat", some "India", some "A", some "2024-01-01",
    none, some "100kg", some "Punjab", some ["Organic"], some "wheat.png",
    some "https://example.com", some []⟩

/-- The metadata document the example run uploads. -/
def mdX : BatchMetadata :=
  PinataService.createBatchMetadata "https://gateway.pinata.cloud"
    "2024-01-01T00:00:00.000Z" "Wheat" "Premium wheat" (some "imgHash")
    (some ⟨some "India", some "A", some "2024-01-01", none, some "100kg",
      some "Punjab", some ["Organic"]⟩) (some [])

theorem claim_C8_witness :
    (∃ mh ihash md, (uploadStage envX fdX).1 = .ok (mh, ihash, md) ∧
      envX.chainCreate mh = .ok 1 ∧
      ClientEvent.sideIndexRecorded 1 mh ∈
        (createBatchWithMetadata envX fdX).2) ∧
    (∃ ihash, envX.uploadFile = .ok ihash ∧
      (createBatchWithMetadata envX fdX).2.head? =
        some (ClientEvent.imageUploaded ihash) ∧
      mdX.image = (if ihash = "" then none
        else some (envX.gateway ++ "/ipfs/" ++ ihash))) :=
  ⟨(claim_C8_offchain_first_then_chain_then_sideindex envX fdX).2.2.2 1 rfl,
   (claim_C8_offchain_first_then_chain_then_sideindex envX fdX).2.2.1
     "metaHash" mdX (by decide) "wheat.png" rfl⟩

/-- C10: the uploaded metadata document never carries an `external_url`:
`createBatchMetadata` never sets the field, and the `formData.external_url`
value passed as a sixth argument to the five-parameter
`uploadBatchWithAssets` is discarded, so this holds even when the caller
supplies a non-empty `external_url`. -/
theorem claim_C10_external_url_never_uploaded :
    (∀ (gateway nowIso name description : String)
        (imageHash : Option String) (properties : Option BatchProperties)
        (attributes : Option (List Attr)),
      (PinataService.createBatchMetadata gateway nowIso name description
        imageHash properties attributes).external_url = none) ∧
    (∀ (env : UploadEnv) (fd : BatchFormData) (mh : String)
        (md : BatchMetadata),
      ClientEvent.metadataUploaded mh md ∈
        (createBatchWithMetadata env fd).2 →
      md.external_url = none) := by
  refine ⟨fun _ _ _ _ _ _ _ => rfl, ?_⟩
  intro env fd mh md hmem
  have hceq := createBatchWithMetadata_eq env fd
  rcases hup : uploadStage env fd with ⟨r, tr⟩
  rw [hup] at hceq
  have hintr : ∀ mh' md', ClientEvent.metadataUploaded mh' md' ∈ tr →
      md'.external_url = none := by
    intro mh' md' hmem'
    have hup2 : (uploadStage env fd).2 = tr := by rw [hup]
    exact (uploadBatchWithAssets_metadataUploaded env fd.name fd.description
      fd.image (some ⟨fd.origin, fd.quality_grade, fd.harvest_date,
        fd.expiry_date, fd.weight, fd.location, fd.certifications⟩)
      fd.attributes mh' md' (by rw [← hup2] at hmem'; exact hmem')).1
  cases r with
  | error e =>
      have hceq' : createBatchWithMetadata env fd = (.error e, tr) := hceq
      rw [hceq'] at hmem
      exact hintr mh md hmem
  | ok t =>
      obtain ⟨mh0, ihash0, md0⟩ := t
      have hceq2 : createBatchWithMetadata env fd =
          match env.chainCreate mh0 with
          | .error e => (.error e, tr ++ [.chainCreateSubmitted mh0])
          | .ok bid => (.ok bid, tr ++ [.chainCreateSubmitted mh0,
              .sideIndexRecorded bid mh0]) := hceq
      cases hcc : env.chainCreate mh0 with
      | error e2 =>
          rw [hcc] at hceq2
          have hceq' : createBatchWithMetadata env fd =
              (.error e2, tr ++ [.chainCreateSubmitted mh0]) := hceq2
          rw [hceq'] at hmem
          rcases List.mem_append.mp hmem with hin | hin
          · exact hintr mh md hin
          · exact absurd hin (by simp)
      | ok bid0 =>
          rw [hcc] at hceq2
          have hceq' : createBatchWithMetadata env fd =
              (.ok bid0, tr ++ [.chainCreateSubmitted mh0,
                .sideIndexRecorded bid0 mh0]) := hceq2
          rw [hceq'] at hmem
          rcases List.mem_append.mp hmem with hin | hin
          · exact hintr mh md hin
          · rcases List.mem_cons.mp hin with h | h
            · exact absurd h (by simp)
            · exact absurd h (by simp)

theorem claim_C10_witness :
    fdX.external_url = some "https://example.com" ∧
    ClientEvent.metadataUploaded "metaHash" mdX ∈
      (createBatchWithMetadata envX fdX).2 ∧
    mdX.external_url = none :=
  ⟨rfl, by decide,
   claim_C10_external_url_never_uploaded.2 envX fdX "metaHash" mdX (by decide)⟩

end Client
